import Mathlib

/-!
Verification development for the expression-driven assembly core of the
gismo repository (files gsAssembler/gsExprAssembler.h and
gsUnstructuredSplines/gsContainerBasis.h).

The shallow embedding below translates the relevant C++ routines into
executable Lean definitions:

* DofMapper models the interface of the external gsDofMapper collaborator
  as the spec describes it (shift, free size, boundary size, finalized
  flag, dense unshifted local index); the free global indices of a mapper
  occupy the half open interval from shift to shift plus freeSize, and the
  boundary (eliminated) indices follow them.
* SparseState models the global sparse matrix in the additive coefficient
  representation (a structurally absent coefficient is the value none)
  together with the dense right hand side.
* pushMat and pushVec are the matrix valued and vector valued branches of
  gsExprAssembler::_eval::push; push is the full assertion checked entry.
* resetList and resetDimensions model gsExprAssembler::resetDimensions,
  initMatrix models gsExprAssembler::initMatrix, numDofs and numTestDofs
  model the corresponding accessors.
* traverseGroups with the three wrappers models the shared element loop of
  the volume, boundary and interface assembly variants, with the skip of
  elements whose mapped quadrature rule has no points.
* ContainerBasis models gsContainerBasis (size and active_into).

Real scalars of the source (template parameter T) are modelled by the
rationals; machine index types by Nat and Int.
-/

/-- Interface model of the external gsDofMapper collaborator: a shift
(first global index of the block), the number of free dofs, the number of
eliminated (boundary) dofs, the finalized flag, and the unshifted dense
index function taking a local index, a patch and a component. -/
structure DofMapper where
  shift : Nat
  freeSize : Nat
  boundarySize : Nat
  finalized : Bool
  index0 : Nat → Nat → Nat → Nat

/-- Global index of a local basis function: the dense index plus the
shift of the block. -/
def DofMapper.index (m : DofMapper) (l p c : Nat) : Nat :=
  m.shift + m.index0 l p c

/-- A global index is free when it lies below shift plus freeSize;
boundary (eliminated) indices come after the free ones. -/
def DofMapper.is_free_index (m : DofMapper) (gl : Nat) : Bool :=
  gl < m.shift + m.freeSize

/-- Position of an eliminated global index inside the fixed dof vector. -/
def DofMapper.global_to_bindex (m : DofMapper) (gl : Nat) : Nat :=
  gl - m.shift - m.freeSize

/-- First global index of the block. -/
def DofMapper.firstIndex (m : DofMapper) : Nat := m.shift

/-- Replace the shift of the mapper. -/
def DofMapper.setShift (v : Nat) (m : DofMapper) : DofMapper :=
  { m with shift := v }

/-- The global system during assembly: the sparse matrix in additive
coefficient form (none means the coefficient was never written, hence is
structurally absent) and the right hand side. -/
structure SparseState where
  matrix : Nat → Nat → Option ℚ
  rhs : Nat → ℚ

/-- Accumulating coefficient write, the model of coeffRef(ii,jj) += v:
an absent coefficient starts from zero. -/
def matAdd (s : SparseState) (i j : Nat) (v : ℚ) : SparseState :=
  { s with matrix := fun p q =>
      if p = i ∧ q = j then some ((s.matrix i j).getD 0 + v) else s.matrix p q }

/-- Right hand side accumulation at row i, the model of rhs.at(i) += v. -/
def rhsAdd (s : SparseState) (i : Nat) (v : ℚ) : SparseState :=
  { s with rhs := fun p => if p = i then s.rhs p + v else s.rhs p }

/-- Right hand side subtraction at row i, the model of rhs.at(i) -= v. -/
def rhsSub (s : SparseState) (i : Nat) (v : ℚ) : SparseState :=
  { s with rhs := fun p => if p = i then s.rhs p - v else s.rhs p }

/-- The data of one function space as seen by the scatter: vector
dimension, dof mapper, the active local basis indices of the current
element, and the fixed (Dirichlet) dof values. -/
structure FeSpace where
  dim : Nat
  mapper : DofMapper
  actives : List Nat
  fixedDofs : List ℚ

/-- Resolved global row index of local active i and component r, the model
of rowMap.index(rowInd0.at(i), patchInd, r). -/
def rowGlobal (v : FeSpace) (patchInd r i : Nat) : Nat :=
  v.mapper.index (v.actives.getD i 0) patchInd r

/-- Resolved global column index of local active j and component c. -/
def colGlobal (u : FeSpace) (patchInd c j : Nat) : Nat :=
  u.mapper.index (u.actives.getD j 0) patchInd c

/-- Innermost statement of the matrix valued scatter for one local column
j of component c, at an already resolved free global row ii of local row
index rowIdx: skip an exactly zero local entry, add a free column entry
into the matrix, and for an eliminated column subtract the local entry
times the fixed dof value of that column from the right hand side. -/
def pushMatColStep (u : FeSpace) (patchInd : Nat) (localMat : Nat → Nat → ℚ)
    (rowIdx ii c : Nat) (s : SparseState) (j : Nat) : SparseState :=
  if localMat rowIdx (c * u.actives.length + j) = 0 then s
  else
    let jj := colGlobal u patchInd c j
    if u.mapper.is_free_index jj then
      matAdd s ii jj (localMat rowIdx (c * u.actives.length + j))
    else
      rhsSub s ii (localMat rowIdx (c * u.actives.length + j) *
        u.fixedDofs.getD (u.mapper.global_to_bindex jj) 0)

/-- Column loops of the matrix valued scatter (components c, actives j). -/
def pushMatInner (u : FeSpace) (patchInd : Nat) (localMat : Nat → Nat → ℚ)
    (rowIdx ii : Nat) (s : SparseState) : SparseState :=
  (List.range u.dim).foldl
    (fun s c => (List.range u.actives.length).foldl
      (pushMatColStep u patchInd localMat rowIdx ii c) s) s

/-- Row statement of the matrix valued scatter for component r and local
active i: resolve the global row and enter the column loops only when it
is free. -/
def pushMatRowStep (v u : FeSpace) (patchInd : Nat) (localMat : Nat → Nat → ℚ)
    (r : Nat) (s : SparseState) (i : Nat) : SparseState :=
  let ii := rowGlobal v patchInd r i
  if v.mapper.is_free_index ii then
    pushMatInner u patchInd localMat (r * v.actives.length + i) ii s
  else s

/-- Matrix valued branch of gsExprAssembler::_eval::push: loops over the
row components and the row actives. -/
def pushMat (v u : FeSpace) (patchInd : Nat) (localMat : Nat → Nat → ℚ)
    (s : SparseState) : SparseState :=
  (List.range v.dim).foldl
    (fun s r => (List.range v.actives.length).foldl
      (pushMatRowStep v u patchInd localMat r) s) s

/-- Row statement of the vector valued scatter: a free resolved global row
receives the local entry into the right hand side; an eliminated row is
dropped. -/
def pushVecStep (v : FeSpace) (patchInd : Nat) (localMat : Nat → Nat → ℚ)
    (r : Nat) (s : SparseState) (i : Nat) : SparseState :=
  let ii := rowGlobal v patchInd r i
  if v.mapper.is_free_index ii then
    rhsAdd s ii (localMat (r * v.actives.length + i) 0)
  else s

/-- Vector valued branch of gsExprAssembler::_eval::push. -/
def pushVec (v : FeSpace) (patchInd : Nat) (localMat : Nat → Nat → ℚ)
    (s : SparseState) : SparseState :=
  (List.range v.dim).foldl
    (fun s r => (List.range v.actives.length).foldl
      (pushVecStep v patchInd localMat r) s) s

/-- The fatal assertion failures of the scatter. -/
inductive PushError where
  | invalidLocalMatrix
  | invalidFixedPart
  deriving DecidableEq

/-- Full scatter entry gsExprAssembler::_eval::push with its assertions:
in the matrix valued case the local block extents must match the active
counts times the vector dimensions, and the boundary size of the column
mapper must match the length of the fixed dof vector; the vector valued
case performs no such checks. localRows and localCols are the extents of
the evaluated local block. -/
def push (isMatrix : Bool) (v u : FeSpace) (patchInd : Nat)
    (localMat : Nat → Nat → ℚ) (localRows localCols : Nat)
    (s : SparseState) : Except PushError SparseState :=
  if isMatrix then
    if v.actives.length * v.dim = localRows ∧
       u.actives.length * u.dim = localCols then
      if u.mapper.boundarySize = u.fixedDofs.length then
        Except.ok (pushMat v u patchInd localMat s)
      else Except.error PushError.invalidFixedPart
    else Except.error PushError.invalidLocalMatrix
  else Except.ok (pushVec v patchInd localMat s)

/-- Concatenation of a list of lists. -/
def catList {α : Type} : List (List α) → List α
  | [] => []
  | x :: xs => x ++ catList xs

/-- Dirichlet elimination amount produced by local column j of component
c for the local row rowIdx: zero for a free column, and for an eliminated
column the local entry times the fixed dof value of that column. -/
def elimTermJ (u : FeSpace) (patchInd : Nat) (localMat : Nat → Nat → ℚ)
    (rowIdx c j : Nat) : ℚ :=
  if u.mapper.is_free_index (colGlobal u patchInd c j) then 0
  else localMat rowIdx (c * u.actives.length + j) *
    u.fixedDofs.getD (u.mapper.global_to_bindex (colGlobal u patchInd c j)) 0

/-- Total Dirichlet elimination amount of one local row. -/
def elimTerm (u : FeSpace) (patchInd : Nat) (localMat : Nat → Nat → ℚ)
    (rowIdx : Nat) : ℚ :=
  ((List.range u.dim).map (fun c =>
    ((List.range u.actives.length).map
      (elimTermJ u patchInd localMat rowIdx c)).sum)).sum

/-- Total Dirichlet elimination amount that the matrix valued scatter
subtracts from the right hand side at the global row iq: the sum, over
the free local rows resolving to iq, of the elimination amount of that
local row. -/
def elimSum (v u : FeSpace) (patchInd : Nat) (localMat : Nat → Nat → ℚ)
    (iq : Nat) : ℚ :=
  ((List.range v.dim).map (fun r =>
    ((List.range v.actives.length).map (fun i =>
      if v.mapper.is_free_index (rowGlobal v patchInd r i) ∧
         rowGlobal v patchInd r i = iq
      then elimTerm u patchInd localMat (r * v.actives.length + i)
      else 0)).sum)).sum

/-- Total amount the vector valued scatter adds to the right hand side at
the global row iq: the sum of the local entries of the free local rows
resolving to iq. -/
def vecSum (v : FeSpace) (patchInd : Nat) (localMat : Nat → Nat → ℚ)
    (iq : Nat) : ℚ :=
  ((List.range v.dim).map (fun r =>
    ((List.range v.actives.length).map (fun i =>
      if v.mapper.is_free_index (rowGlobal v patchInd r i) ∧
         rowGlobal v patchInd r i = iq
      then localMat (r * v.actives.length + i) 0
      else 0)).sum)).sum

/-- The (possibly empty) contribution of local column j of component c of
local row rowIdx to the global matrix coefficient at column qq: present
exactly when the local entry is non zero and the column resolves to the
free global index qq. -/
def matContribJ (u : FeSpace) (patchInd : Nat) (localMat : Nat → Nat → ℚ)
    (rowIdx qq c j : Nat) : List ℚ :=
  if localMat rowIdx (c * u.actives.length + j) ≠ 0 ∧
     u.mapper.is_free_index (colGlobal u patchInd c j) ∧
     colGlobal u patchInd c j = qq
  then [localMat rowIdx (c * u.actives.length + j)]
  else []

/-- All contributions of one local row to the global coefficient column
qq. -/
def matContribInner (u : FeSpace) (patchInd : Nat) (localMat : Nat → Nat → ℚ)
    (rowIdx qq : Nat) : List ℚ :=
  catList ((List.range u.dim).map (fun c =>
    catList ((List.range u.actives.length).map
      (matContribJ u patchInd localMat rowIdx qq c))))

/-- All contributions of the matrix valued scatter to the global matrix
coefficient at (pp, qq): the free local rows resolving to pp contribute
their non zero entries on columns resolving to qq. -/
def matContribs (v u : FeSpace) (patchInd : Nat) (localMat : Nat → Nat → ℚ)
    (pp qq : Nat) : List ℚ :=
  catList ((List.range v.dim).map (fun r =>
    catList ((List.range v.actives.length).map (fun i =>
      if v.mapper.is_free_index (rowGlobal v patchInd r i) ∧
         rowGlobal v patchInd r i = pp
      then matContribInner u patchInd localMat (r * v.actives.length + i) qq
      else []))))

/-- A property preserved by every step of a fold is preserved by the
fold. -/
theorem foldl_preserve {α β : Type} (Q : β → Prop) (f : β → α → β)
    (h : ∀ b a, Q b → Q (f b a)) :
    ∀ (l : List α) (b : β), Q b → Q (l.foldl f b) := by
  intro l
  induction l with
  | nil => intro b hb; exact hb
  | cons a t ih => intro b hb; exact ih (f b a) (h b a hb)

/-- A fold whose every step adds a step determined amount to a measure
adds the sum of the amounts. -/
theorem foldl_delta {α β : Type} (g : β → ℚ) (f : β → α → β) (d : α → ℚ)
    (h : ∀ b a, g (f b a) = g b + d a) :
    ∀ (l : List α) (b : β), g (l.foldl f b) = g b + (l.map d).sum := by
  intro l
  induction l with
  | nil => intro b; simp
  | cons a t ih =>
      intro b
      rw [List.foldl_cons, ih (f b a), h, List.map_cons, List.sum_cons, add_assoc]

/-- A fold whose every step subtracts a step determined amount from a
measure subtracts the sum of the amounts. -/
theorem foldl_delta_sub {α β : Type} (g : β → ℚ) (f : β → α → β) (d : α → ℚ)
    (h : ∀ b a, g (f b a) = g b - d a) :
    ∀ (l : List α) (b : β), g (l.foldl f b) = g b - (l.map d).sum := by
  intro l
  induction l with
  | nil => intro b; simp
  | cons a t ih =>
      intro b
      rw [List.foldl_cons, ih (f b a), h, List.map_cons, List.sum_cons]
      ring

/-- Concatenation unfolds on a cons. -/
theorem catList_cons {α : Type} (x : List α) (xs : List (List α)) :
    catList (x :: xs) = x ++ catList xs := rfl

/-- A fold whose every step either leaves an optional accumulator
untouched (empty contribution list) or replaces it by some of its default
zero reading plus the contribution sum behaves, as a whole, the same way
with the concatenated contribution list. -/
theorem foldl_acc {α β : Type} (g : β → Option ℚ) (f : β → α → β)
    (d : α → List ℚ)
    (h : ∀ b a, g (f b a) =
      if d a = [] then g b else some ((g b).getD 0 + (d a).sum)) :
    ∀ (l : List α) (b : β),
      g (l.foldl f b) =
        if catList (l.map d) = [] then g b
        else some ((g b).getD 0 + (catList (l.map d)).sum) := by
  intro l
  induction l with
  | nil => intro b; simp [catList]
  | cons a t ih =>
      intro b
      rw [List.foldl_cons, ih (f b a), List.map_cons, catList_cons, h]
      by_cases ha : d a = []
      · simp [ha]
      · by_cases ht : catList (t.map d) = []
        · simp [ha, ht]
        · have hne : ¬(d a ++ catList (t.map d) = []) := by
            simp [List.append_eq_nil, ha]
          rw [if_neg ha, if_neg ht, if_neg hne, Option.getD_some, List.sum_append,
            add_assoc]

/-- A map to zero sums to zero. -/
theorem sum_map_zero {α : Type} (l : List α) :
    (l.map (fun _ => (0 : ℚ))).sum = 0 := by
  induction l with
  | nil => rfl
  | cons a t ih => simp [ih]

/-- A map to the empty list concatenates to the empty list. -/
theorem catList_map_nil {α β : Type} (l : List α) :
    catList (l.map (fun _ => ([] : List β))) = [] := by
  induction l with
  | nil => rfl
  | cons a t ih => simpa [catList_cons] using ih

/-- A replicated empty list concatenates to the empty list. -/
theorem catList_replicate_nil {α : Type} (n : Nat) :
    catList (List.replicate n ([] : List α)) = [] := by
  induction n with
  | zero => rfl
  | succ k ih => simpa [List.replicate, catList_cons] using ih

/-- Effect of one innermost matrix scatter statement on the right hand
side: it subtracts the elimination amount of that local column when the
query row is the target row, and nothing otherwise. -/
theorem colStep_rhs_at (u : FeSpace) (patchInd : Nat) (lm : Nat → Nat → ℚ)
    (rowIdx ii c iq : Nat) (s : SparseState) (j : Nat) :
    (pushMatColStep u patchInd lm rowIdx ii c s j).rhs iq =
      s.rhs iq - (if iq = ii then elimTermJ u patchInd lm rowIdx c j else 0) := by
  unfold pushMatColStep elimTermJ
  by_cases hm : lm rowIdx (c * u.actives.length + j) = 0
  · simp [hm]
  · simp only [if_neg hm]
    by_cases hf : u.mapper.is_free_index (colGlobal u patchInd c j) = true
    · simp [hf, matAdd]
    · simp only [Bool.not_eq_true] at hf
      simp only [hf, Bool.false_eq_true, if_false, if_neg hm]
      by_cases hii : iq = ii
      · simp [hii, rhsSub]
      · simp [hii, rhsSub]

/-- One innermost matrix scatter statement never touches a matrix
coefficient in an eliminated (non free) global column. -/
theorem colStep_matrix_bnd (u : FeSpace) (patchInd : Nat) (lm : Nat → Nat → ℚ)
    (rowIdx ii c pp qq : Nat) (s : SparseState) (j : Nat)
    (hq : u.mapper.is_free_index qq = false) :
    (pushMatColStep u patchInd lm rowIdx ii c s j).matrix pp qq = s.matrix pp qq := by
  unfold pushMatColStep
  by_cases hm : lm rowIdx (c * u.actives.length + j) = 0
  · simp [hm]
  · simp only [if_neg hm]
    by_cases hf : u.mapper.is_free_index (colGlobal u patchInd c j) = true
    · have hne : ¬(qq = colGlobal u patchInd c j) := by
        intro h
        rw [h] at hq
        rw [hq] at hf
        exact absurd hf (by simp)
      simp [hf, matAdd, hne]
    · simp only [Bool.not_eq_true] at hf
      simp [hf, rhsSub]

/-- Effect of one innermost matrix scatter statement on the matrix
coefficient at (pp, qq), in accumulator form: the step contributes its
local entry exactly when the target row is pp and the column resolves to
the free index qq with a non zero entry. -/
theorem colStep_matrix_acc (u : FeSpace) (patchInd : Nat) (lm : Nat → Nat → ℚ)
    (rowIdx ii c pp qq : Nat) (s : SparseState) (j : Nat) :
    (pushMatColStep u patchInd lm rowIdx ii c s j).matrix pp qq =
      if (if ii = pp then matContribJ u patchInd lm rowIdx qq c j else []) = []
      then s.matrix pp qq
      else some ((s.matrix pp qq).getD 0 +
        ((if ii = pp then matContribJ u patchInd lm rowIdx qq c j else [])).sum) := by
  unfold pushMatColStep matContribJ
  by_cases hm : lm rowIdx (c * u.actives.length + j) = 0
  · simp [hm]
  · simp only [if_neg hm]
    by_cases hf : u.mapper.is_free_index (colGlobal u patchInd c j) = true
    · by_cases hp : ii = pp
      · subst hp
        by_cases hq : colGlobal u patchInd c j = qq
        · subst hq
          simp [matAdd, hm, hf]
        · have hq2 : ¬(qq = colGlobal u patchInd c j) := fun h => hq h.symm
          simp [matAdd, hm, hf, hq, hq2]
      · have hp2 : ¬(pp = ii) := fun h => hp h.symm
        simp [matAdd, hm, hf, hp, hp2]
    · simp only [Bool.not_eq_true] at hf
      simp [hf, rhsSub, hm]

/-- Effect of the column loops on the right hand side: the full
elimination amount of the local row is subtracted at the target row. -/
theorem pushMatInner_rhs (u : FeSpace) (patchInd : Nat) (lm : Nat → Nat → ℚ)
    (rowIdx ii iq : Nat) (s : SparseState) :
    (pushMatInner u patchInd lm rowIdx ii s).rhs iq =
      s.rhs iq - (if iq = ii then elimTerm u patchInd lm rowIdx else 0) := by
  have hc : ∀ (b : SparseState) (c : Nat),
      ((List.range u.actives.length).foldl
        (pushMatColStep u patchInd lm rowIdx ii c) b).rhs iq =
      b.rhs iq - ((List.range u.actives.length).map
        (fun j => if iq = ii then elimTermJ u patchInd lm rowIdx c j else 0)).sum := by
    intro b c
    exact foldl_delta_sub (fun st => st.rhs iq) _ _
      (fun b2 j => colStep_rhs_at u patchInd lm rowIdx ii c iq b2 j) _ b
  have hmain := foldl_delta_sub (fun st => st.rhs iq)
      (fun b c => (List.range u.actives.length).foldl
        (pushMatColStep u patchInd lm rowIdx ii c) b)
      (fun c => ((List.range u.actives.length).map
        (fun j => if iq = ii then elimTermJ u patchInd lm rowIdx c j else 0)).sum)
      hc (List.range u.dim) s
  refine hmain.trans ?_
  congr 1
  by_cases hii : iq = ii
  · simp only [hii, if_true, elimTerm, if_pos]
  · simp [hii, sum_map_zero]

/-- The column loops never touch a matrix coefficient in an eliminated
global column. -/
theorem pushMatInner_matrix_bnd (u : FeSpace) (patchInd : Nat)
    (lm : Nat → Nat → ℚ) (rowIdx ii pp qq : Nat) (s : SparseState)
    (hq : u.mapper.is_free_index qq = false) :
    (pushMatInner u patchInd lm rowIdx ii s).matrix pp qq = s.matrix pp qq := by
  unfold pushMatInner
  refine foldl_preserve (fun st => st.matrix pp qq = s.matrix pp qq) _ ?_ _ s rfl
  intro b c hb
  refine foldl_preserve (fun st => st.matrix pp qq = s.matrix pp qq) _ ?_ _ b hb
  intro b2 j hb2
  rw [colStep_matrix_bnd u patchInd lm rowIdx ii c pp qq b2 j hq]
  exact hb2

/-- Effect of the column loops on the matrix coefficient at (pp, qq), in
accumulator form. -/
theorem pushMatInner_matrix_acc (u : FeSpace) (patchInd : Nat)
    (lm : Nat → Nat → ℚ) (rowIdx ii pp qq : Nat) (s : SparseState) :
    (pushMatInner u patchInd lm rowIdx ii s).matrix pp qq =
      if (if ii = pp then matContribInner u patchInd lm rowIdx qq else []) = []
      then s.matrix pp qq
      else some ((s.matrix pp qq).getD 0 +
        ((if ii = pp then matContribInner u patchInd lm rowIdx qq else [])).sum) := by
  have hc : ∀ (b : SparseState) (c : Nat),
      ((List.range u.actives.length).foldl
        (pushMatColStep u patchInd lm rowIdx ii c) b).matrix pp qq =
      if catList ((List.range u.actives.length).map
          (fun j => if ii = pp then matContribJ u patchInd lm rowIdx qq c j else [])) = []
      then b.matrix pp qq
      else some ((b.matrix pp qq).getD 0 +
        (catList ((List.range u.actives.length).map
          (fun j => if ii = pp then matContribJ u patchInd lm rowIdx qq c j else []))).sum) := by
    intro b c
    exact foldl_acc (fun st => st.matrix pp qq) _ _
      (fun b2 j => colStep_matrix_acc u patchInd lm rowIdx ii c pp qq b2 j) _ b
  have hmain := foldl_acc (fun st => st.matrix pp qq)
      (fun b c => (List.range u.actives.length).foldl
        (pushMatColStep u patchInd lm rowIdx ii c) b)
      (fun c => catList ((List.range u.actives.length).map
        (fun j => if ii = pp then matContribJ u patchInd lm rowIdx qq c j else [])))
      hc (List.range u.dim) s
  refine hmain.trans ?_
  by_cases hp : ii = pp
  · simp only [if_pos hp]
    rfl
  · simp [hp, catList_map_nil, catList_replicate_nil]

/-- Effect of one row statement of the matrix scatter on the right hand
side. -/
theorem rowStep_rhs (v u : FeSpace) (patchInd : Nat) (lm : Nat → Nat → ℚ)
    (r iq : Nat) (b : SparseState) (i : Nat) :
    (pushMatRowStep v u patchInd lm r b i).rhs iq =
      b.rhs iq - (if v.mapper.is_free_index (rowGlobal v patchInd r i) ∧
          rowGlobal v patchInd r i = iq
        then elimTerm u patchInd lm (r * v.actives.length + i) else 0) := by
  unfold pushMatRowStep
  by_cases hfree : v.mapper.is_free_index (rowGlobal v patchInd r i) = true
  · rw [if_pos hfree, pushMatInner_rhs]
    congr 1
    by_cases hiq : iq = rowGlobal v patchInd r i
    · simp [hiq, hfree]
    · have h2 : ¬(rowGlobal v patchInd r i = iq) := fun h => hiq h.symm
      simp [hiq, h2]
  · rw [if_neg hfree]
    simp [hfree]

/-- Effect of one row statement of the matrix scatter on the matrix
coefficient at (pp, qq), in accumulator form. -/
theorem rowStep_matrix_acc (v u : FeSpace) (patchInd : Nat)
    (lm : Nat → Nat → ℚ) (r pp qq : Nat) (b : SparseState) (i : Nat) :
    (pushMatRowStep v u patchInd lm r b i).matrix pp qq =
      if (if v.mapper.is_free_index (rowGlobal v patchInd r i) ∧
            rowGlobal v patchInd r i = pp
          then matContribInner u patchInd lm (r * v.actives.length + i) qq
          else []) = []
      then b.matrix pp qq
      else some ((b.matrix pp qq).getD 0 +
        ((if v.mapper.is_free_index (rowGlobal v patchInd r i) ∧
            rowGlobal v patchInd r i = pp
          then matContribInner u patchInd lm (r * v.actives.length + i) qq
          else [])).sum) := by
  unfold pushMatRowStep
  by_cases hfree : v.mapper.is_free_index (rowGlobal v patchInd r i) = true
  · rw [if_pos hfree, pushMatInner_matrix_acc]
    simp [hfree]
  · rw [if_neg hfree]
    simp [hfree]

/-- The matrix valued scatter subtracts, at every global row, the total
Dirichlet elimination amount targeting that row. -/
theorem pushMat_rhs (v u : FeSpace) (patchInd : Nat) (lm : Nat → Nat → ℚ)
    (s : SparseState) (iq : Nat) :
    (pushMat v u patchInd lm s).rhs iq = s.rhs iq - elimSum v u patchInd lm iq := by
  have hi : ∀ (b : SparseState) (r : Nat),
      ((List.range v.actives.length).foldl (pushMatRowStep v u patchInd lm r) b).rhs iq
        = b.rhs iq - ((List.range v.actives.length).map (fun i =>
            if v.mapper.is_free_index (rowGlobal v patchInd r i) ∧
               rowGlobal v patchInd r i = iq
            then elimTerm u patchInd lm (r * v.actives.length + i) else 0)).sum := by
    intro b r
    exact foldl_delta_sub (fun st => st.rhs iq) _ _
      (fun b2 i => rowStep_rhs v u patchInd lm r iq b2 i) _ b
  exact foldl_delta_sub (fun st => st.rhs iq)
    (fun b r => (List.range v.actives.length).foldl (pushMatRowStep v u patchInd lm r) b)
    (fun r => ((List.range v.actives.length).map (fun i =>
      if v.mapper.is_free_index (rowGlobal v patchInd r i) ∧
         rowGlobal v patchInd r i = iq
      then elimTerm u patchInd lm (r * v.actives.length + i) else 0)).sum)
    hi (List.range v.dim) s

/-- The matrix valued scatter never writes a matrix coefficient whose
global column index is eliminated (not free). -/
theorem pushMat_matrix_bnd (v u : FeSpace) (patchInd : Nat)
    (lm : Nat → Nat → ℚ) (s : SparseState) (pp qq : Nat)
    (hq : u.mapper.is_free_index qq = false) :
    (pushMat v u patchInd lm s).matrix pp qq = s.matrix pp qq := by
  unfold pushMat
  refine foldl_preserve (fun st => st.matrix pp qq = s.matrix pp qq) _ ?_ _ s rfl
  intro b r hb
  refine foldl_preserve (fun st => st.matrix pp qq = s.matrix pp qq) _ ?_ _ b hb
  intro b2 i hb2
  unfold pushMatRowStep
  by_cases hfree : v.mapper.is_free_index (rowGlobal v patchInd r i) = true
  · rw [if_pos hfree,
      pushMatInner_matrix_bnd u patchInd lm (r * v.actives.length + i)
        (rowGlobal v patchInd r i) pp qq b2 hq]
    exact hb2
  · rw [if_neg hfree]
    exact hb2

/-- Accumulator form of the whole matrix valued scatter at one global
matrix coefficient. -/
theorem pushMat_matrix_acc (v u : FeSpace) (patchInd : Nat)
    (lm : Nat → Nat → ℚ) (s : SparseState) (pp qq : Nat) :
    (pushMat v u patchInd lm s).matrix pp qq =
      if matContribs v u patchInd lm pp qq = [] then s.matrix pp qq
      else some ((s.matrix pp qq).getD 0 + (matContribs v u patchInd lm pp qq).sum) := by
  have hi : ∀ (b : SparseState) (r : Nat),
      ((List.range v.actives.length).foldl (pushMatRowStep v u patchInd lm r) b).matrix pp qq
        = if catList ((List.range v.actives.length).map (fun i =>
              if v.mapper.is_free_index (rowGlobal v patchInd r i) ∧
                 rowGlobal v patchInd r i = pp
              then matContribInner u patchInd lm (r * v.actives.length + i) qq
              else [])) = []
          then b.matrix pp qq
          else some ((b.matrix pp qq).getD 0 +
            (catList ((List.range v.actives.length).map (fun i =>
              if v.mapper.is_free_index (rowGlobal v patchInd r i) ∧
                 rowGlobal v patchInd r i = pp
              then matContribInner u patchInd lm (r * v.actives.length + i) qq
              else []))).sum) := by
    intro b r
    exact foldl_acc (fun st => st.matrix pp qq) _ _
      (fun b2 i => rowStep_matrix_acc v u patchInd lm r pp qq b2 i) _ b
  exact foldl_acc (fun st => st.matrix pp qq)
    (fun b r => (List.range v.actives.length).foldl (pushMatRowStep v u patchInd lm r) b)
    (fun r => catList ((List.range v.actives.length).map (fun i =>
      if v.mapper.is_free_index (rowGlobal v patchInd r i) ∧
         rowGlobal v patchInd r i = pp
      then matContribInner u patchInd lm (r * v.actives.length + i) qq
      else [])))
    hi (List.range v.dim) s

/-- Effect of one row statement of the vector scatter on the right hand
side. -/
theorem vecStep_rhs (v : FeSpace) (patchInd : Nat) (lm : Nat → Nat → ℚ)
    (r iq : Nat) (b : SparseState) (i : Nat) :
    (pushVecStep v patchInd lm r b i).rhs iq =
      b.rhs iq + (if v.mapper.is_free_index (rowGlobal v patchInd r i) ∧
          rowGlobal v patchInd r i = iq
        then lm (r * v.actives.length + i) 0 else 0) := by
  unfold pushVecStep
  by_cases hfree : v.mapper.is_free_index (rowGlobal v patchInd r i) = true
  · rw [if_pos hfree]
    by_cases hiq : iq = rowGlobal v patchInd r i
    · simp [rhsAdd, hiq, hfree]
    · have h2 : ¬(rowGlobal v patchInd r i = iq) := fun h => hiq h.symm
      simp [rhsAdd, hiq, h2]
  · rw [if_neg hfree]
    simp [hfree]

/-- One row statement of the vector scatter never touches the matrix. -/
theorem vecStep_matrix (v : FeSpace) (patchInd : Nat) (lm : Nat → Nat → ℚ)
    (r : Nat) (b : SparseState) (i : Nat) :
    (pushVecStep v patchInd lm r b i).matrix = b.matrix := by
  unfold pushVecStep
  by_cases hfree : v.mapper.is_free_index (rowGlobal v patchInd r i) = true
  · rw [if_pos hfree]; rfl
  · rw [if_neg hfree]

/-- The vector valued scatter adds, at every global row, the total of the
local entries of the free local rows resolving to that row. -/
theorem pushVec_rhs (v : FeSpace) (patchInd : Nat) (lm : Nat → Nat → ℚ)
    (s : SparseState) (iq : Nat) :
    (pushVec v patchInd lm s).rhs iq = s.rhs iq + vecSum v patchInd lm iq := by
  have hi : ∀ (b : SparseState) (r : Nat),
      ((List.range v.actives.length).foldl (pushVecStep v patchInd lm r) b).rhs iq
        = b.rhs iq + ((List.range v.actives.length).map (fun i =>
            if v.mapper.is_free_index (rowGlobal v patchInd r i) ∧
               rowGlobal v patchInd r i = iq
            then lm (r * v.actives.length + i) 0 else 0)).sum := by
    intro b r
    exact foldl_delta (fun st => st.rhs iq) _ _
      (fun b2 i => vecStep_rhs v patchInd lm r iq b2 i) _ b
  exact foldl_delta (fun st => st.rhs iq)
    (fun b r => (List.range v.actives.length).foldl (pushVecStep v patchInd lm r) b)
    (fun r => ((List.range v.actives.length).map (fun i =>
      if v.mapper.is_free_index (rowGlobal v patchInd r i) ∧
         rowGlobal v patchInd r i = iq
      then lm (r * v.actives.length + i) 0 else 0)).sum)
    hi (List.range v.dim) s

/-- The vector valued scatter leaves the global matrix untouched. -/
theorem pushVec_matrix (v : FeSpace) (patchInd : Nat) (lm : Nat → Nat → ℚ)
    (s : SparseState) :
    (pushVec v patchInd lm s).matrix = s.matrix := by
  unfold pushVec
  refine foldl_preserve (fun st => st.matrix = s.matrix) _ ?_ _ s rfl
  intro b r hb
  refine foldl_preserve (fun st => st.matrix = s.matrix) _ ?_ _ b hb
  intro b2 i hb2
  rw [vecStep_matrix]
  exact hb2

/-- C1: in the matrix valued scatter, the right hand side at every global
row decreases by exactly the total over the contributing local entries of
the local entry times the fixed dof value of its eliminated column
(elimSum, which ranges over free rows paired with eliminated columns),
and no coefficient is ever written into the global matrix at a pair whose
column index is eliminated. -/
theorem c1_push_eliminated_columns (v u : FeSpace) (patchInd : Nat)
    (lm : Nat → Nat → ℚ) (s : SparseState) :
    (∀ pp qq, u.mapper.is_free_index qq = false →
      (pushMat v u patchInd lm s).matrix pp qq = s.matrix pp qq)
    ∧ ∀ iq, (pushMat v u patchInd lm s).rhs iq =
        s.rhs iq - elimSum v u patchInd lm iq :=
  ⟨fun pp qq hq => pushMat_matrix_bnd v u patchInd lm s pp qq hq,
   fun iq => pushMat_rhs v u patchInd lm s iq⟩

/-- C4: the vector valued scatter adds every local entry with a free
resolved global row into the right hand side at that row (vecSum), while
entries whose resolved row is eliminated contribute nothing, and the
global matrix is never touched. -/
theorem c4_push_vector (v : FeSpace) (patchInd : Nat) (lm : Nat → Nat → ℚ)
    (s : SparseState) :
    (∀ pp qq, (pushVec v patchInd lm s).matrix pp qq = s.matrix pp qq)
    ∧ ∀ iq, (pushVec v patchInd lm s).rhs iq = s.rhs iq + vecSum v patchInd lm iq :=
  ⟨fun pp qq => by rw [pushVec_matrix], fun iq => pushVec_rhs v patchInd lm s iq⟩

/-- C5: a global matrix coefficient is written by the matrix valued
scatter exactly when some non zero local entry targets it; when none does
(in particular when every targeting local entry is exactly zero) the
coefficient is left untouched, hence a structurally absent coefficient
stays absent, and when contributions exist they are accumulated by
addition onto the previous value, never overwritten. -/
theorem c5_push_zero_skip_accumulate (v u : FeSpace) (patchInd : Nat)
    (lm : Nat → Nat → ℚ) (s : SparseState) (pp qq : Nat) :
    (pushMat v u patchInd lm s).matrix pp qq =
      if matContribs v u patchInd lm pp qq = [] then s.matrix pp qq
      else some ((s.matrix pp qq).getD 0 + (matContribs v u patchInd lm pp qq).sum) :=
  pushMat_matrix_acc v u patchInd lm s pp qq

/-- C7 (amended to the matrix valued scatter): a matrix valued scatter
whose local block extents disagree with active count times vector
dimension fails with the malformed local block error; with matching
extents, a disagreement between the boundary size of the column mapper
and the fixed dof vector length fails with the inconsistent fixed dofs
error; otherwise the scatter runs. -/
theorem c7_push_fatal_checks (v u : FeSpace) (patchInd : Nat)
    (lm : Nat → Nat → ℚ) (localRows localCols : Nat) (s : SparseState) :
    (¬(v.actives.length * v.dim = localRows ∧
        u.actives.length * u.dim = localCols) →
      push true v u patchInd lm localRows localCols s =
        Except.error PushError.invalidLocalMatrix)
    ∧ ((v.actives.length * v.dim = localRows ∧
        u.actives.length * u.dim = localCols) →
      ¬(u.mapper.boundarySize = u.fixedDofs.length) →
      push true v u patchInd lm localRows localCols s =
        Except.error PushError.invalidFixedPart)
    ∧ ((v.actives.length * v.dim = localRows ∧
        u.actives.length * u.dim = localCols) →
      u.mapper.boundarySize = u.fixedDofs.length →
      push true v u patchInd lm localRows localCols s =
        Except.ok (pushMat v u patchInd lm s)) := by
  refine ⟨?_, ?_, ?_⟩
  · intro hdim
    simp [push, hdim]
  · intro hdim hb
    simp [push, hdim.1, hdim.2, hb]
  · intro hdim hb
    simp [push, hdim.1, hdim.2, hb]

/-- Concrete dof mapper with one free dof and no boundary dof. -/
def mapC7 : DofMapper := ⟨0, 1, 0, true, fun l _ _ => l⟩

/-- Concrete scalar space with a single active function. -/
def vC7 : FeSpace := ⟨1, mapC7, [0], []⟩

/-- Concrete dof mapper with one free and one boundary dof. -/
def mapC7b : DofMapper := ⟨0, 1, 1, true, fun l _ _ => l⟩

/-- Concrete column space with two actives and one fixed dof value. -/
def uC7 : FeSpace := ⟨1, mapC7b, [0, 1], [5]⟩

/-- Constant one local block. -/
def lmC7 : Nat → Nat → ℚ := fun _ _ => 1

/-- Empty global system. -/
def sC7 : SparseState := ⟨fun _ _ => none, fun _ => 0⟩

/-- C7 counterexample to the claim as stated: a vector valued scatter
whose local block row extent (here 7) disagrees with the active count
times the vector dimension (here 1) does not fail at all; the source
performs the extent assertion only in the matrix valued branch. -/
theorem c7_counterexample :
    vC7.actives.length * vC7.dim ≠ 7 ∧
    push false vC7 uC7 0 lmC7 7 7 sC7 = Except.ok (pushVec vC7 0 lmC7 sC7) :=
  ⟨by decide, rfl⟩

/-- Witness for the amended C7 theorem at a concrete malformed input. -/
theorem c7_push_fatal_checks_witness :
    ¬(vC7.actives.length * vC7.dim = 7 ∧ uC7.actives.length * uC7.dim = 2) ∧
    push true vC7 uC7 0 lmC7 7 2 sC7 =
      Except.error PushError.invalidLocalMatrix :=
  ⟨by decide, (c7_push_fatal_checks vC7 uC7 0 lmC7 7 2 sC7).1 (by decide)⟩

/-- Concrete row space for the C1 witness: two actives, global index 0
free and global index 1 eliminated. -/
def vC1 : FeSpace := ⟨1, mapC7b, [0, 1], []⟩

/-- Concrete column space for the C1 witness, with fixed dof value 5. -/
def uC1 : FeSpace := ⟨1, mapC7b, [0, 1], [5]⟩

/-- Concrete 2 by 2 local block. -/
def lmC1 : Nat → Nat → ℚ := fun i j =>
  if i = 0 ∧ j = 0 then 3 else if i = 0 ∧ j = 1 then 2 else 7

/-- Witness for the C1 theorem: global column 1 is eliminated for the
concrete column mapper, and the scatter leaves the matrix coefficient at
(0, 1) untouched while the right hand side obeys the elimination sum. -/
theorem c1_push_eliminated_columns_witness :
    uC1.mapper.is_free_index 1 = false ∧
    (pushMat vC1 uC1 0 lmC1 sC7).matrix 0 1 = sC7.matrix 0 1 ∧
    (pushMat vC1 uC1 0 lmC1 sC7).rhs 0 = sC7.rhs 0 - elimSum vC1 uC1 0 lmC1 0 :=
  ⟨by decide,
   (c1_push_eliminated_columns vC1 uC1 0 lmC1 sC7).1 0 1 (by decide),
   (c1_push_eliminated_columns vC1 uC1 0 lmC1 sC7).2 0⟩

/-- The registry record of one registered space (gsFeSpaceData): vector
dimension, dof mapper and fixed dof values. -/
structure SpaceData where
  dim : Nat
  mapper : DofMapper
  fixedDofs : List ℚ

/-- Default mapper used for out of range list reads. -/
def dummyMapper : DofMapper := ⟨0, 0, 0, false, fun _ _ _ => 0⟩

/-- Default space record used for out of range list reads. -/
def dummySpace : SpaceData := ⟨0, dummyMapper, []⟩

/-- Block i of a registry list. -/
def blockAt (l : List SpaceData) (i : Nat) : SpaceData :=
  l.getD i dummySpace

/-- One step of the shift chain of resetDimensions: the next block
receives as shift the first index of the previous block plus its vector
dimension times its free size. -/
def chainNext (prev b : SpaceData) : SpaceData :=
  { b with mapper := (DofMapper.setShift
      (prev.mapper.firstIndex + prev.dim * prev.mapper.freeSize) b.mapper) }

/-- The in place loop of resetDimensions from block one on: each block is
updated against the already updated previous block. -/
def resetChain : SpaceData → List SpaceData → List SpaceData
  | _, [] => []
  | prev, b :: rest => chainNext prev b :: resetChain (chainNext prev b) rest

/-- resetDimensions on one registry list: block zero keeps its shift, the
later blocks are rechained. -/
def resetList : List SpaceData → List SpaceData
  | [] => []
  | b :: rest => b :: resetChain b rest

/-- The assembly options consumed by initMatrix. -/
structure AsmOptions where
  bdA : ℚ
  bdB : ℤ
  bdO : ℚ

/-- The registry state of the assembler: row blocks, column blocks, the
maximal basis degree per domain dimension, and the options. -/
structure AsmState where
  vrow : List SpaceData
  vcol : List SpaceData
  degrees : List Nat
  opts : AsmOptions

/-- gsExprAssembler::resetDimensions: rechain the shifts of the column
blocks and of the row blocks. -/
def resetDimensions (st : AsmState) : AsmState :=
  { st with vcol := resetList st.vcol, vrow := resetList st.vrow }

/-- gsExprAssembler::numBlocks: the accumulated vector dimensions of the
row blocks. -/
def numBlocks (vrow : List SpaceData) : Nat :=
  vrow.foldl (fun nb b => nb + b.dim) 0

/-- gsExprAssembler::numDofs: first index plus free size of the mapper of
the last column block; none models the assertion failure when the mapper
was not finalized. -/
def numDofs (st : AsmState) : Option Nat :=
  if (st.vcol.getLastD dummySpace).mapper.finalized then
    some ((st.vcol.getLastD dummySpace).mapper.firstIndex +
      (st.vcol.getLastD dummySpace).mapper.freeSize)
  else none

/-- gsExprAssembler::numTestDofs, same for the last row block. -/
def numTestDofs (st : AsmState) : Option Nat :=
  if (st.vrow.getLastD dummySpace).mapper.finalized then
    some ((st.vrow.getLastD dummySpace).mapper.firstIndex +
      (st.vrow.getLastD dummySpace).mapper.freeSize)
  else none

/-- Truncating cast from the real valued estimate to the integer reserve
count, the model of the coefficient cast to index_t. -/
def castTrunc (q : ℚ) : ℤ := Int.tdiv q.num (q.den : ℤ)

/-- The loop of initMatrix accumulating nz over the domain dimensions:
nz starts at one and each dimension multiplies it by bdA times the
maximal degree plus bdB. -/
def nzLoop (bdA : ℚ) (bdB : ℤ) (degrees : List Nat) : ℚ :=
  degrees.foldl (fun nz dg => nz * (bdA * (dg : ℚ) + (bdB : ℚ))) 1

/-- Outcome of initMatrix: matrix dimensions and the per column non zero
reservation (none for the warned zero sized system). -/
structure InitResult where
  rows : Nat
  cols : Nat
  reserved : Option ℤ
  deriving DecidableEq

/-- gsExprAssembler::initMatrix: reset the dimensions, size the matrix to
numTestDofs by numDofs, and unless one dimension is zero (warning, no
reservation) reserve per column numBlocks times the truncated cast of nz
times one plus bdO. The outer none models the assertion failure of the
dof accessors on unfinalized mappers. -/
def initMatrix (st : AsmState) : Option (AsmState × InitResult) :=
  match numTestDofs (resetDimensions st), numDofs (resetDimensions st) with
  | some rows, some cols =>
    if rows = 0 ∨ cols = 0 then some (resetDimensions st, ⟨rows, cols, none⟩)
    else some (resetDimensions st, ⟨rows, cols,
      some ((numBlocks (resetDimensions st).vrow : ℤ) *
        castTrunc (nzLoop st.opts.bdA st.opts.bdB st.degrees *
          (1 + st.opts.bdO)))⟩)
  | _, _ => none

/-- The chain update keeps the list length. -/
theorem resetChain_length (l : List SpaceData) :
    ∀ (prev : SpaceData), (resetChain prev l).length = l.length := by
  induction l with
  | nil => intro prev; rfl
  | cons b rest ih =>
      intro prev
      simp only [resetChain, List.length_cons, ih (chainNext prev b)]

/-- resetList keeps the list length. -/
theorem resetList_length (l : List SpaceData) :
    (resetList l).length = l.length := by
  cases l with
  | nil => rfl
  | cons b rest => simp only [resetList, List.length_cons, resetChain_length]

/-- Adjacent shift relation inside the chain: every block of the chain
result carries the shift derived from its predecessor in the result. -/
theorem resetChain_adj (l : List SpaceData) :
    ∀ (prev : SpaceData) (i : Nat), i + 1 < l.length →
      (blockAt (resetChain prev l) (i + 1)).mapper.shift =
        (blockAt (resetChain prev l) i).mapper.shift +
        (blockAt (resetChain prev l) i).dim *
          (blockAt (resetChain prev l) i).mapper.freeSize := by
  induction l with
  | nil => intro prev i h; exact absurd h (by simp)
  | cons b rest ih =>
      intro prev i h
      cases i with
      | zero =>
          cases rest with
          | nil => exact absurd h (by simp)
          | cons c rest2 => rfl
      | succ k =>
          have hk : k + 1 < rest.length := by
            simpa [Nat.succ_lt_succ_iff] using h
          exact ih (chainNext prev b) k hk

/-- Adjacent shift relation after resetList: every block from index one
on carries the shift derived from its predecessor. -/
theorem resetList_adj (l : List SpaceData) (i : Nat) (h : i + 1 < l.length) :
    (blockAt (resetList l) (i + 1)).mapper.shift =
      (blockAt (resetList l) i).mapper.shift +
      (blockAt (resetList l) i).dim *
        (blockAt (resetList l) i).mapper.freeSize := by
  cases l with
  | nil => exact absurd h (by simp)
  | cons b rest =>
      cases i with
      | zero =>
          cases rest with
          | nil => exact absurd h (by simp)
          | cons c rest2 => rfl
      | succ k =>
          have hk : k + 1 < rest.length := by
            simpa [Nat.succ_lt_succ_iff] using h
          exact resetChain_adj rest b k hk

/-- After resetList the end of the range of an earlier block never
exceeds the shift of a later block. -/
theorem resetList_mono (l : List SpaceData) (i : Nat) :
    ∀ (j : Nat), i < j → j < l.length →
      (blockAt (resetList l) i).mapper.shift +
        (blockAt (resetList l) i).dim *
          (blockAt (resetList l) i).mapper.freeSize ≤
      (blockAt (resetList l) j).mapper.shift := by
  intro j
  induction j with
  | zero => intro hij; exact absurd hij (Nat.not_lt_zero i)
  | succ k ih =>
      intro hij hj
      rcases Nat.lt_succ_iff_lt_or_eq.mp hij with hik | hie
      · have hk : k < l.length := Nat.lt_of_succ_lt hj
        have h1 := ih hik hk
        have h2 := resetList_adj l k hj
        exact Nat.le_trans h1 (by rw [h2]; exact Nat.le_add_right _ _)
      · subst hie
        exact Nat.le_of_eq (resetList_adj l i hj).symm

/-- C3: after resetDimensions, every block from index one on has shift
equal to the first index of the previous block plus the previous vector
dimension times the previous free size, and consequently the global index
ranges of two distinct blocks are disjoint. -/
theorem c3_reset_shifts_disjoint (l : List SpaceData) :
    (∀ i, i + 1 < l.length →
      (blockAt (resetList l) (i + 1)).mapper.shift =
        (blockAt (resetList l) i).mapper.firstIndex +
        (blockAt (resetList l) i).dim *
          (blockAt (resetList l) i).mapper.freeSize)
    ∧ ∀ i j, i < j → j < l.length →
      Disjoint
        (Set.Ico ((blockAt (resetList l) i).mapper.shift)
          ((blockAt (resetList l) i).mapper.shift +
            (blockAt (resetList l) i).dim *
              (blockAt (resetList l) i).mapper.freeSize))
        (Set.Ico ((blockAt (resetList l) j).mapper.shift)
          ((blockAt (resetList l) j).mapper.shift +
            (blockAt (resetList l) j).dim *
              (blockAt (resetList l) j).mapper.freeSize)) := by
  constructor
  · intro i h
    exact resetList_adj l i h
  · intro i j hij hj
    have hmono := resetList_mono l i j hij hj
    rw [Set.disjoint_left]
    intro x hx hx2
    rw [Set.mem_Ico] at hx hx2
    exact absurd hx.2 (Nat.not_lt.mpr (Nat.le_trans hmono hx2.1))

/-- Blocks of at least three elements for the C3 witness. -/
def blkW (n : Nat) : SpaceData :=
  ⟨2, ⟨n, n + 1, 1, true, fun l _ _ => l⟩, []⟩

/-- Concrete registry list for the C3 witness. -/
def lC3 : List SpaceData := [blkW 4, blkW 7, blkW 5]

/-- Witness for C3 at a concrete three block registry. -/
theorem c3_reset_shifts_disjoint_witness :
    (1 + 1 < lC3.length ∧
      (blockAt (resetList lC3) 2).mapper.shift =
        (blockAt (resetList lC3) 1).mapper.firstIndex +
        (blockAt (resetList lC3) 1).dim *
          (blockAt (resetList lC3) 1).mapper.freeSize)
    ∧ (0 < 2 ∧ 2 < lC3.length ∧
      Disjoint
        (Set.Ico ((blockAt (resetList lC3) 0).mapper.shift)
          ((blockAt (resetList lC3) 0).mapper.shift +
            (blockAt (resetList lC3) 0).dim *
              (blockAt (resetList lC3) 0).mapper.freeSize))
        (Set.Ico ((blockAt (resetList lC3) 2).mapper.shift)
          ((blockAt (resetList lC3) 2).mapper.shift +
            (blockAt (resetList lC3) 2).dim *
              (blockAt (resetList lC3) 2).mapper.freeSize))) :=
  ⟨⟨by decide, (c3_reset_shifts_disjoint lC3).1 1 (by decide)⟩,
   by decide, by decide,
   (c3_reset_shifts_disjoint lC3).2 0 2 (by decide) (by decide)⟩

/-- Rechaining an already rechained block changes nothing. -/
theorem chainNext_idem (prev b : SpaceData) :
    chainNext prev (chainNext prev b) = chainNext prev b := rfl

/-- The chain update is idempotent. -/
theorem resetChain_idem (l : List SpaceData) :
    ∀ (prev : SpaceData), resetChain prev (resetChain prev l) = resetChain prev l := by
  induction l with
  | nil => intro prev; rfl
  | cons b rest ih =>
      intro prev
      show chainNext prev (chainNext prev b) ::
          resetChain (chainNext prev (chainNext prev b))
            (resetChain (chainNext prev b) rest) = _
      rw [chainNext_idem, ih (chainNext prev b)]
      rfl

/-- resetList is idempotent. -/
theorem resetList_idem (l : List SpaceData) :
    resetList (resetList l) = resetList l := by
  cases l with
  | nil => rfl
  | cons b rest =>
      show b :: resetChain b (resetChain b rest) = _
      rw [resetChain_idem]
      rfl

/-- resetDimensions is idempotent. -/
theorem resetDimensions_idem (st : AsmState) :
    resetDimensions (resetDimensions st) = resetDimensions st := by
  simp [resetDimensions, resetList_idem]

/-- The state returned by initMatrix is the reset state. -/
theorem initMatrix_fst (st st1 : AsmState) (r : InitResult)
    (h : initMatrix st = some (st1, r)) : st1 = resetDimensions st := by
  unfold initMatrix at h
  split at h
  · split at h
    · simp only [Option.some.injEq, Prod.mk.injEq] at h
      exact h.1.symm
    · simp only [Option.some.injEq, Prod.mk.injEq] at h
      exact h.1.symm
  · cases h

/-- initMatrix on an already reset state computes the same outcome. -/
theorem initMatrix_reset (st : AsmState) :
    initMatrix (resetDimensions st) = initMatrix st := by
  unfold initMatrix
  rw [resetDimensions_idem]
  rfl

/-- C9: a second initMatrix call on the state left by a first call, with
registrations and options unchanged, yields the same state and the same
matrix dimensions and per column reservation estimate; resetDimensions is
idempotent on that state. -/
theorem c9_initMatrix_idempotent (st st1 : AsmState) (r : InitResult)
    (h : initMatrix st = some (st1, r)) :
    initMatrix st1 = some (st1, r) ∧ resetDimensions st1 = st1 := by
  have h1 : st1 = resetDimensions st := initMatrix_fst st st1 r h
  subst h1
  exact ⟨by rw [initMatrix_reset]; exact h, resetDimensions_idem st⟩

/-- Concrete fully constrained single block state for the C9 witness. -/
def stC9 : AsmState :=
  ⟨[⟨1, ⟨0, 0, 0, true, fun _ _ _ => 0⟩, []⟩],
   [⟨1, ⟨0, 0, 0, true, fun _ _ _ => 0⟩, []⟩], [], ⟨2, 1, 0⟩⟩

/-- Witness for C9 at a concrete state. -/
theorem c9_initMatrix_idempotent_witness :
    initMatrix stC9 = some (stC9, ⟨0, 0, none⟩) ∧
    initMatrix stC9 = some (stC9, ⟨0, 0, none⟩) ∧
    resetDimensions stC9 = stC9 :=
  ⟨rfl, c9_initMatrix_idempotent stC9 stC9 ⟨0, 0, none⟩ rfl⟩

/-- An additive fold over naturals equals the start plus the mapped
sum. -/
theorem foldl_add_nat {α : Type} (f : α → Nat) :
    ∀ (l : List α) (n : Nat),
      l.foldl (fun s x => s + f x) n = n + (l.map f).sum := by
  intro l
  induction l with
  | nil => intro n; simp
  | cons a t ih =>
      intro n
      rw [List.foldl_cons, ih (n + f a), List.map_cons, List.sum_cons,
        Nat.add_assoc]

/-- A multiplicative fold over the rationals equals the start times the
mapped product. -/
theorem foldl_mul_rat {α : Type} (f : α → ℚ) :
    ∀ (l : List α) (q : ℚ),
      l.foldl (fun a x => a * f x) q = q * (l.map f).prod := by
  intro l
  induction l with
  | nil => intro q; simp
  | cons a t ih =>
      intro q
      rw [List.foldl_cons, ih (q * f a), List.map_cons, List.prod_cons,
        mul_assoc]

/-- The chain update keeps every vector dimension. -/
theorem resetChain_map_dim (l : List SpaceData) :
    ∀ (prev : SpaceData),
      (resetChain prev l).map (fun b => b.dim) = l.map (fun b => b.dim) := by
  induction l with
  | nil => intro prev; rfl
  | cons b rest ih =>
      intro prev
      show SpaceData.dim (chainNext prev b) ::
        (resetChain (chainNext prev b) rest).map (fun b => b.dim) = _
      rw [ih (chainNext prev b)]
      rfl

/-- resetList keeps every vector dimension. -/
theorem resetList_map_dim (l : List SpaceData) :
    (resetList l).map (fun b => b.dim) = l.map (fun b => b.dim) := by
  cases l with
  | nil => rfl
  | cons b rest =>
      show SpaceData.dim b :: (resetChain b rest).map (fun b => b.dim) = _
      rw [resetChain_map_dim]
      rfl

/-- numBlocks is the sum of the vector dimensions. -/
theorem numBlocks_eq_sum (l : List SpaceData) :
    numBlocks l = (l.map (fun b => b.dim)).sum := by
  unfold numBlocks
  rw [foldl_add_nat (fun b => b.dim) l 0, Nat.zero_add]

/-- The nz loop computes the product over the dimensions of bdA times
the degree plus bdB. -/
theorem nzLoop_prod (bdA : ℚ) (bdB : ℤ) (degrees : List Nat) :
    nzLoop bdA bdB degrees =
      (degrees.map (fun dg => bdA * (dg : ℚ) + (bdB : ℚ))).prod := by
  unfold nzLoop
  rw [foldl_mul_rat (fun dg => bdA * (dg : ℚ) + (bdB : ℚ)) degrees 1, one_mul]

/-- The per column reservation count exactly as claim C2 words it, with a
sum over the domain dimensions where the code computes a product; kept
for comparison against initMatrix. -/
def reservedSpecSum (st : AsmState) : ℤ :=
  (numBlocks st.vrow : ℤ) *
    castTrunc ((1 + st.opts.bdO) *
      ((st.degrees.map (fun dg =>
        st.opts.bdA * (dg : ℚ) + (st.opts.bdB : ℚ))).sum))

/-- C2 (amended: the code multiplies the per dimension counts, so the
estimate uses the product over the domain dimensions, not the sum): when
both matrix dimensions are non zero, initMatrix reserves per column
numBlocks, the sum of the registered row space vector dimensions, times
the truncated integer cast of the product over the domain dimensions of
(bdA times the maximal degree in that dimension plus bdB), times one
plus bdO. -/
theorem c2_initMatrix_reserve (st : AsmState) (rows cols : Nat)
    (hT : numTestDofs (resetDimensions st) = some rows)
    (hC : numDofs (resetDimensions st) = some cols)
    (hz : ¬(rows = 0 ∨ cols = 0)) :
    initMatrix st = some (resetDimensions st, ⟨rows, cols,
      some ((((st.vrow.map (fun b => b.dim)).sum : Nat) : ℤ) *
        castTrunc (((st.degrees.map (fun dg =>
            st.opts.bdA * (dg : ℚ) + (st.opts.bdB : ℚ))).prod) *
          (1 + st.opts.bdO)))⟩) := by
  have h1 : numBlocks (resetDimensions st).vrow =
      (st.vrow.map (fun b => b.dim)).sum := by
    rw [numBlocks_eq_sum]
    show ((resetList st.vrow).map (fun b => b.dim)).sum = _
    rw [resetList_map_dim]
  have h2 := nzLoop_prod st.opts.bdA st.opts.bdB st.degrees
  unfold initMatrix
  rw [hT, hC]
  show (if rows = 0 ∨ cols = 0 then _ else _) = _
  rw [if_neg hz, h1, h2]

/-- Concrete single block with three free dofs. -/
def blkC2 : SpaceData := ⟨1, ⟨0, 3, 0, true, fun l _ _ => l⟩, []⟩

/-- Concrete assembler state for the C2 counterexample: one scalar block,
two domain dimensions of maximal degrees one and two, bdA two, bdB one,
bdO zero. -/
def stC2 : AsmState := ⟨[blkC2], [blkC2], [1, 2], ⟨2, 1, 0⟩⟩

/-- C2 counterexample to the claim as stated: on stC2 the code reserves
numBlocks times cast((2*1+1)*(2*2+1)) = 15 per column, the product over
the two dimensions, while the sum formula of the claim yields
(2*1+1)+(2*2+1) = 8. -/
theorem c2_counterexample :
    (initMatrix stC2).map (fun pr => pr.2.reserved) = some (some 15) ∧
    reservedSpecSum stC2 = 8 ∧ (15 : ℤ) ≠ 8 := by
  refine ⟨?_, ?_, by decide⟩
  · have hT : numTestDofs (resetDimensions stC2) = some 3 := rfl
    have hC : numDofs (resetDimensions stC2) = some 3 := rfl
    have hnz : nzLoop stC2.opts.bdA stC2.opts.bdB stC2.degrees *
        (1 + stC2.opts.bdO) = 15 := by
      norm_num [nzLoop, stC2]
    have hnb : numBlocks (resetDimensions stC2).vrow = 1 := rfl
    have hct : castTrunc 15 = 15 := by norm_num [castTrunc]
    unfold initMatrix
    rw [hT, hC]
    show (Option.map _ (if (3 : Nat) = 0 ∨ (3 : Nat) = 0 then _ else _)) = _
    rw [if_neg (by decide), hnz, hnb, hct]
    norm_num
  · have hsum : (1 + stC2.opts.bdO) *
        ((stC2.degrees.map (fun dg =>
          stC2.opts.bdA * (dg : ℚ) + (stC2.opts.bdB : ℚ))).sum) = 8 := by
      norm_num [stC2]
    unfold reservedSpecSum
    rw [hsum]
    have hct : castTrunc 8 = 8 := by norm_num [castTrunc]
    rw [hct]
    norm_num [numBlocks, stC2, blkC2]

/-- Witness for the amended C2 theorem at the concrete state stC2. -/
theorem c2_initMatrix_reserve_witness :
    numTestDofs (resetDimensions stC2) = some 3 ∧
    numDofs (resetDimensions stC2) = some 3 ∧
    ¬((3 : Nat) = 0 ∨ (3 : Nat) = 0) ∧
    initMatrix stC2 = some (resetDimensions stC2, ⟨3, 3,
      some ((((stC2.vrow.map (fun b => b.dim)).sum : Nat) : ℤ) *
        castTrunc (((stC2.degrees.map (fun dg =>
            stC2.opts.bdA * (dg : ℚ) + (stC2.opts.bdB : ℚ))).prod) *
          (1 + stC2.opts.bdO)))⟩) :=
  ⟨rfl, rfl, by decide,
   c2_initMatrix_reserve stC2 3 3 rfl rfl (by decide)⟩

/-- C8: for a single block system, numDofs returns the first index plus
the free size of the trial mapper and numTestDofs the first index plus
the free size of the test mapper, and either accessor aborts on an
unfinalized mapper. -/
theorem c8_numDofs_single_block (st : AsmState) (bc br : SpaceData)
    (hc : st.vcol = [bc]) (hr : st.vrow = [br]) :
    (bc.mapper.finalized = true →
      numDofs st = some (bc.mapper.firstIndex + bc.mapper.freeSize))
    ∧ (br.mapper.finalized = true →
      numTestDofs st = some (br.mapper.firstIndex + br.mapper.freeSize))
    ∧ (bc.mapper.finalized = false → numDofs st = none)
    ∧ (br.mapper.finalized = false → numTestDofs st = none) := by
  unfold numDofs numTestDofs
  rw [hc, hr]
  refine ⟨?_, ?_, ?_, ?_⟩ <;> intro h <;> simp [List.getLastD, h]

/-- Finalized single block for the C8 witness. -/
def bW8 : SpaceData := ⟨1, ⟨2, 3, 0, true, fun l _ _ => l⟩, []⟩

/-- Unfinalized single block for the C8 witness. -/
def bW8n : SpaceData := ⟨1, ⟨2, 3, 0, false, fun l _ _ => l⟩, []⟩

/-- Concrete single block state with a finalized mapper. -/
def stC8 : AsmState := ⟨[bW8], [bW8], [], ⟨2, 1, 0⟩⟩

/-- Concrete single block state with an unfinalized mapper. -/
def stC8n : AsmState := ⟨[bW8n], [bW8n], [], ⟨2, 1, 0⟩⟩

/-- Witness for C8: the finalized accessor value and the unfinalized
abort, at concrete states. -/
theorem c8_numDofs_single_block_witness :
    stC8.vcol = [bW8] ∧ bW8.mapper.finalized = true ∧
    numDofs stC8 = some (bW8.mapper.firstIndex + bW8.mapper.freeSize) ∧
    stC8n.vcol = [bW8n] ∧ bW8n.mapper.finalized = false ∧
    numDofs stC8n = none :=
  ⟨rfl, rfl,
   (c8_numDofs_single_block stC8 bW8 bW8 rfl rfl).1 rfl,
   rfl, rfl,
   (c8_numDofs_single_block stC8n bW8n bW8n rfl rfl).2.2.1 rfl⟩

/-- One element of a traversal, as the element loops see it: a stable
identifier and the number of quadrature points the rule mapped onto the
element (the column count of the mapped point matrix). -/
structure QElement where
  id : Nat
  npts : Nat

/-- Traversal state: the global system plus the logs of the elements that
were precomputed and of the elements whose expressions were evaluated. -/
structure TravState where
  sys : SparseState
  pre : List Nat
  evald : List Nat

/-- One element iteration: map the rule to the element; when the mapped
point set is empty, skip silently; otherwise precompute, evaluate and
accumulate the contribution of the element. contrib is the abstract
expression evaluation and scatter of one element. -/
def elemStep (contrib : Nat → SparseState → SparseState)
    (ts : TravState) (e : QElement) : TravState :=
  if e.npts = 0 then ts
  else ⟨contrib e.id ts.sys, ts.pre ++ [e.id], ts.evald ++ [e.id]⟩

/-- The shared element loop of the three traversal variants. -/
def elemLoop (contrib : Nat → SparseState → SparseState)
    (elems : List QElement) (ts : TravState) : TravState :=
  elems.foldl (elemStep contrib) ts

/-- The shared outer loop over patches, boundary descriptors or
interfaces: each group contributes its element loop. -/
def traverseGroups (contrib : Nat → SparseState → SparseState)
    (groups : List (List QElement)) (ts : TravState) : TravState :=
  groups.foldl (fun ts es => elemLoop contrib es ts) ts

/-- Volume variant of gsExprAssembler::assemble: one group of elements
per patch. -/
def assembleVolume (contrib : Nat → SparseState → SparseState)
    (patches : List (List QElement)) (ts : TravState) : TravState :=
  traverseGroups contrib patches ts

/-- Boundary variant: one group of elements per boundary descriptor. -/
def assembleBoundary (contrib : Nat → SparseState → SparseState)
    (sides : List (List QElement)) (ts : TravState) : TravState :=
  traverseGroups contrib sides ts

/-- Interface variant of assembleInterface_impl: one group of elements
per patch pair. -/
def assembleIfaces (contrib : Nat → SparseState → SparseState)
    (faces : List (List QElement)) (ts : TravState) : TravState :=
  traverseGroups contrib faces ts

/-- Identifiers of the elements of a group that have a non empty mapped
quadrature point set. -/
def idsOf (es : List QElement) : List Nat :=
  (es.filter (fun e => e.npts != 0)).map (fun e => e.id)

/-- The element loop ignores elements with an empty mapped point set. -/
theorem elemLoop_filter (contrib : Nat → SparseState → SparseState)
    (es : List QElement) :
    ∀ (ts : TravState),
      elemLoop contrib es ts =
        elemLoop contrib (es.filter (fun e => e.npts != 0)) ts := by
  induction es with
  | nil => intro ts; rfl
  | cons e t ih =>
      intro ts
      by_cases h : e.npts = 0
      · have hp : (e.npts != 0) = false := by simp [h]
        show elemLoop contrib t (elemStep contrib ts e) = _
        rw [List.filter_cons, hp]
        simp only [Bool.false_eq_true, if_false]
        rw [show elemStep contrib ts e = ts from by simp [elemStep, h]]
        exact ih ts
      · have hp : (e.npts != 0) = true := by simp [h]
        show elemLoop contrib t (elemStep contrib ts e) = _
        rw [List.filter_cons, hp]
        simp only [if_true]
        show _ = elemLoop contrib (t.filter (fun e => e.npts != 0))
          (elemStep contrib ts e)
        exact ih (elemStep contrib ts e)

/-- The precompute log of the element loop extends by exactly the
identifiers of the elements with a non empty point set, in order. -/
theorem elemLoop_pre (contrib : Nat → SparseState → SparseState)
    (es : List QElement) :
    ∀ (ts : TravState),
      (elemLoop contrib es ts).pre = ts.pre ++ idsOf es := by
  induction es with
  | nil => intro ts; simp [elemLoop, idsOf]
  | cons e t ih =>
      intro ts
      by_cases h : e.npts = 0
      · have hp : (e.npts != 0) = false := by simp [h]
        show (elemLoop contrib t (elemStep contrib ts e)).pre = _
        rw [show elemStep contrib ts e = ts from by simp [elemStep, h], ih ts]
        simp [idsOf, List.filter_cons, hp]
      · have hp : (e.npts != 0) = true := by simp [h]
        show (elemLoop contrib t (elemStep contrib ts e)).pre = _
        rw [ih (elemStep contrib ts e)]
        have hstep : (elemStep contrib ts e).pre = ts.pre ++ [e.id] := by
          simp [elemStep, h]
        rw [hstep, List.append_assoc]
        simp [idsOf, List.filter_cons, hp]

/-- The evaluation log of the element loop extends by exactly the
identifiers of the elements with a non empty point set, in order. -/
theorem elemLoop_evald (contrib : Nat → SparseState → SparseState)
    (es : List QElement) :
    ∀ (ts : TravState),
      (elemLoop contrib es ts).evald = ts.evald ++ idsOf es := by
  induction es with
  | nil => intro ts; simp [elemLoop, idsOf]
  | cons e t ih =>
      intro ts
      by_cases h : e.npts = 0
      · have hp : (e.npts != 0) = false := by simp [h]
        show (elemLoop contrib t (elemStep contrib ts e)).evald = _
        rw [show elemStep contrib ts e = ts from by simp [elemStep, h], ih ts]
        simp [idsOf, List.filter_cons, hp]
      · have hp : (e.npts != 0) = true := by simp [h]
        show (elemLoop contrib t (elemStep contrib ts e)).evald = _
        rw [ih (elemStep contrib ts e)]
        have hstep : (elemStep contrib ts e).evald = ts.evald ++ [e.id] := by
          simp [elemStep, h]
        rw [hstep, List.append_assoc]
        simp [idsOf, List.filter_cons, hp]

/-- The grouped traversal ignores elements with an empty mapped point
set in every group. -/
theorem traverseGroups_filter (contrib : Nat → SparseState → SparseState)
    (gs : List (List QElement)) :
    ∀ (ts : TravState),
      traverseGroups contrib gs ts =
        traverseGroups contrib
          (gs.map (fun es => es.filter (fun e => e.npts != 0))) ts := by
  induction gs with
  | nil => intro ts; rfl
  | cons g t ih =>
      intro ts
      show traverseGroups contrib t (elemLoop contrib g ts) = _
      rw [elemLoop_filter contrib g ts, ih]
      rfl

/-- The precompute log of the grouped traversal lists exactly the
elements with non empty point sets. -/
theorem traverseGroups_pre (contrib : Nat → SparseState → SparseState)
    (gs : List (List QElement)) :
    ∀ (ts : TravState),
      (traverseGroups contrib gs ts).pre = ts.pre ++ catList (gs.map idsOf) := by
  induction gs with
  | nil => intro ts; simp [traverseGroups, catList]
  | cons g t ih =>
      intro ts
      show (traverseGroups contrib t (elemLoop contrib g ts)).pre = _
      rw [ih (elemLoop contrib g ts), elemLoop_pre contrib g ts,
        List.map_cons, catList_cons, List.append_assoc]

/-- The evaluation log of the grouped traversal lists exactly the
elements with non empty point sets. -/
theorem traverseGroups_evald (contrib : Nat → SparseState → SparseState)
    (gs : List (List QElement)) :
    ∀ (ts : TravState),
      (traverseGroups contrib gs ts).evald =
        ts.evald ++ catList (gs.map idsOf) := by
  induction gs with
  | nil => intro ts; simp [traverseGroups, catList]
  | cons g t ih =>
      intro ts
      show (traverseGroups contrib t (elemLoop contrib g ts)).evald = _
      rw [ih (elemLoop contrib g ts), elemLoop_evald contrib g ts,
        List.map_cons, catList_cons, List.append_assoc]

/-- C6: in all three traversal variants an element whose mapped
quadrature rule yields zero points is skipped silently: the whole
traversal outcome (system, precompute log, evaluation log) equals the
outcome on the element lists with those elements removed, and the
precompute and evaluation logs contain exactly the elements with a non
empty point set. -/
theorem c6_empty_quadrature_skip (contrib : Nat → SparseState → SparseState)
    (gs : List (List QElement)) (ts : TravState) :
    (assembleVolume contrib gs ts =
        assembleVolume contrib
          (gs.map (fun es => es.filter (fun e => e.npts != 0))) ts
      ∧ (assembleVolume contrib gs ts).pre = ts.pre ++ catList (gs.map idsOf)
      ∧ (assembleVolume contrib gs ts).evald = ts.evald ++ catList (gs.map idsOf))
    ∧ (assembleBoundary contrib gs ts =
        assembleBoundary contrib
          (gs.map (fun es => es.filter (fun e => e.npts != 0))) ts
      ∧ (assembleBoundary contrib gs ts).pre = ts.pre ++ catList (gs.map idsOf)
      ∧ (assembleBoundary contrib gs ts).evald = ts.evald ++ catList (gs.map idsOf))
    ∧ (assembleIfaces contrib gs ts =
        assembleIfaces contrib
          (gs.map (fun es => es.filter (fun e => e.npts != 0))) ts
      ∧ (assembleIfaces contrib gs ts).pre = ts.pre ++ catList (gs.map idsOf)
      ∧ (assembleIfaces contrib gs ts).evald = ts.evald ++ catList (gs.map idsOf)) :=
  ⟨⟨traverseGroups_filter contrib gs ts, traverseGroups_pre contrib gs ts,
    traverseGroups_evald contrib gs ts⟩,
   ⟨traverseGroups_filter contrib gs ts, traverseGroups_pre contrib gs ts,
    traverseGroups_evald contrib gs ts⟩,
   ⟨traverseGroups_filter contrib gs ts, traverseGroups_pre contrib gs ts,
    traverseGroups_evald contrib gs ts⟩⟩

/-- One subspace of the container basis: its size and, per query point,
its active basis indices. -/
structure SubBasis where
  size : Nat
  active : Nat → List Nat

/-- gsContainerBasis: the collection of subspaces. -/
structure ContainerBasis where
  bases : List SubBasis

/-- gsContainerBasis::size: the accumulated sizes of the subspaces. -/
def ContainerBasis.size (cb : ContainerBasis) : Nat :=
  cb.bases.foldl (fun sz b => sz + b.size) 0

/-- The stacking pass of gsContainerBasis::active_into: each subspace
block is shifted by the running shift and appended; the shift then grows
by the size of that subspace. -/
def activeShift (u : Nat) : Nat → List SubBasis → List Nat
  | _, [] => []
  | shift, b :: rest =>
      ((b.active u).map (fun a => a + shift)) ++
        activeShift u (shift + b.size) rest

/-- gsContainerBasis::active_into at one query point. -/
def ContainerBasis.active_into (cb : ContainerBasis) (u : Nat) : List Nat :=
  activeShift u 0 cb.bases

/-- Default subspace for out of range reads. -/
def dummySub : SubBasis := ⟨0, fun _ => []⟩

/-- Accumulated sizes of the subspaces before index i. -/
def prefixSize (bs : List SubBasis) (i : Nat) : Nat :=
  ((bs.take i).map (fun b => b.size)).sum

/-- The accumulated size unfolds on a cons. -/
theorem prefixSize_cons_succ (b : SubBasis) (rest : List SubBasis) (i : Nat) :
    prefixSize (b :: rest) (i + 1) = b.size + prefixSize rest i := by
  simp [prefixSize]

/-- The stacking pass equals the concatenation of the per subspace
shifted blocks, the block of subspace i shifted by the accumulated sizes
of the preceding subspaces. -/
theorem activeShift_chunks (u : Nat) (bs : List SubBasis) :
    ∀ (s : Nat), activeShift u s bs =
      catList ((List.range bs.length).map (fun i =>
        ((bs.getD i dummySub).active u).map
          (fun a => a + (s + prefixSize bs i)))) := by
  induction bs with
  | nil => intro s; rfl
  | cons b rest ih =>
      intro s
      show ((b.active u).map (fun a => a + s)) ++
        activeShift u (s + b.size) rest = _
      rw [ih (s + b.size), List.length_cons, List.range_succ_eq_map,
        List.map_cons, catList_cons, List.map_map]
      have hmaps : List.map ((fun i =>
            List.map (fun a => a + (s + prefixSize (b :: rest) i))
              (((b :: rest).getD i dummySub).active u)) ∘ Nat.succ)
          (List.range rest.length)
          = List.map (fun i =>
              List.map (fun a => a + (s + b.size + prefixSize rest i))
                ((rest.getD i dummySub).active u)) (List.range rest.length) := by
        apply List.map_congr_left
        intro i _
        show List.map (fun a => a + (s + prefixSize (b :: rest) (i + 1)))
            ((rest.getD i dummySub).active u) = _
        rw [prefixSize_cons_succ]
        have harith : s + (b.size + prefixSize rest i) =
            s + b.size + prefixSize rest i := by omega
        rw [harith]
      rw [hmaps]
      rfl

/-- Every stacked index stays below the running shift plus the total of
the subspace sizes, provided each subspace reports indices below its own
size. -/
theorem activeShift_lt (u : Nat) (bs : List SubBasis)
    (h : ∀ b ∈ bs, ∀ a ∈ b.active u, a < b.size) :
    ∀ (s : Nat), ∀ x ∈ activeShift u s bs,
      x < s + (bs.map (fun b => b.size)).sum := by
  induction bs with
  | nil => intro s x hx; exact absurd hx (by simp [activeShift])
  | cons b rest ih =>
      intro s x hx
      rw [show activeShift u s (b :: rest) =
        ((b.active u).map (fun a => a + s)) ++
          activeShift u (s + b.size) rest from rfl] at hx
      rw [List.mem_append] at hx
      rcases hx with hx | hx
      · rw [List.mem_map] at hx
        obtain ⟨a, ha, rfl⟩ := hx
        have := h b (by simp) a ha
        simp only [List.map_cons, List.sum_cons]
        omega
      · have hrest : ∀ b2 ∈ rest, ∀ a ∈ b2.active u, a < b2.size :=
          fun b2 hb2 => h b2 (by simp [hb2])
        have := ih hrest (s + b.size) x hx
        simp only [List.map_cons, List.sum_cons]
        omega

/-- C10: the container basis size is the sum of the subspace sizes;
active_into concatenates the per subspace active indices, each block
shifted by the accumulated sizes of the preceding subspaces; hence the
block of subspace i lies inside its half open global index range, and
under the per subspace index bound every reported index is below the
container size. -/
theorem c10_container_basis (cb : ContainerBasis) (u : Nat)
    (h : ∀ b ∈ cb.bases, ∀ a ∈ b.active u, a < b.size) :
    cb.size = (cb.bases.map (fun b => b.size)).sum
    ∧ cb.active_into u =
        catList ((List.range cb.bases.length).map (fun i =>
          ((cb.bases.getD i dummySub).active u).map
            (fun a => a + prefixSize cb.bases i)))
    ∧ (∀ i, i < cb.bases.length →
        ∀ x ∈ ((cb.bases.getD i dummySub).active u).map
            (fun a => a + prefixSize cb.bases i),
          prefixSize cb.bases i ≤ x ∧
            x < prefixSize cb.bases i + (cb.bases.getD i dummySub).size)
    ∧ ∀ x ∈ cb.active_into u, x < cb.size := by
  have hsize : cb.size = (cb.bases.map (fun b => b.size)).sum := by
    unfold ContainerBasis.size
    rw [foldl_add_nat (fun b => b.size) cb.bases 0, Nat.zero_add]
  refine ⟨hsize, ?_, ?_, ?_⟩
  · rw [ContainerBasis.active_into, activeShift_chunks u cb.bases 0]
    simp
  · intro i hi x hx
    rw [List.mem_map] at hx
    obtain ⟨a, ha, rfl⟩ := hx
    have hb : cb.bases.getD i dummySub ∈ cb.bases := by
      rw [List.getD_eq_getElem cb.bases dummySub hi]
      exact List.getElem_mem hi
    have := h (cb.bases.getD i dummySub) hb a ha
    omega
  · intro x hx
    rw [ContainerBasis.active_into] at hx
    have := activeShift_lt u cb.bases h 0 x hx
    rw [hsize]
    omega

/-- Concrete container with two subspaces for the C10 witness. -/
def cbW : ContainerBasis := ⟨[⟨2, fun _ => [0, 1]⟩, ⟨3, fun _ => [1]⟩]⟩

/-- Witness for C10 at a concrete container and query point. -/
theorem c10_container_basis_witness :
    (∀ b ∈ cbW.bases, ∀ a ∈ b.active 0, a < b.size) ∧
    cbW.size = (cbW.bases.map (fun b => b.size)).sum ∧
    ∀ x ∈ cbW.active_into 0, x < cbW.size :=
  ⟨by decide, (c10_container_basis cbW 0 (by decide)).1,
   (c10_container_basis cbW 0 (by decide)).2.2.2⟩

